import Mathlib

/-!
Verification of the Secret Santa matcher (`src/secret_santa.py`).

The core of the program is a constrained random matching: `filter_valid_pairs`
enumerates the ordered index pairs (giver, receiver) that respect the two
exclusion rules (different identity, different category), and
`secret_santa_draw` shuffles that candidate list and greedily commits pairs
first-fit until either every participant is matched or the candidate list is
exhausted.

The embedding below models a pandas DataFrame row as a `Participant` record and
the DataFrame as a `List Participant`; the integer labels produced by
`iterrows` on a freshly loaded frame are the positions 0..N-1, so candidate
pairs are pairs of `Nat` positions and `iloc` is positional lookup (`getD`).
The call to `random.shuffle` mutates the candidate list into one of its
permutations, so the draw is modelled as a function of the participant list
and the shuffled candidate list, quantified over all permutations of
`filter_valid_pairs`.
-/

/-- One row of the participant DataFrame: columns `NOM`, `Prénom`,
`Catégorie` (possibly `None`), `Email`. -/
structure Participant where
  nom : String
  prenom : String
  categorie : Option String
  email : String
deriving DecidableEq, Repr

instance : Inhabited Participant := ⟨⟨"", "", none, ""⟩⟩

/-- The test of line 36:
`(giver['NOM'] != receiver['NOM'] or giver['Prénom'] != receiver['Prénom'])
and giver['Catégorie'] != receiver['Catégorie']`. -/
def validPair (giver receiver : Participant) : Prop :=
  (giver.nom ≠ receiver.nom ∨ giver.prenom ≠ receiver.prenom) ∧
    giver.categorie ≠ receiver.categorie

instance (giver receiver : Participant) : Decidable (validPair giver receiver) := by
  unfold validPair; infer_instance

/-- `filter_valid_pairs` (lines 23-39): for every ordered pair of row labels
(i, j) — both ranging over the whole frame, including i = j — keep (i, j) iff
the line-36 test passes for rows i (giver) and j (receiver). -/
def filter_valid_pairs (participants : List Participant) : List (Nat × Nat) :=
  (List.range participants.length).flatMap fun i =>
    (List.range participants.length).filterMap fun j =>
      if validPair (participants.getD i default) (participants.getD j default)
      then some (i, j) else none

/-- The commitment test of line 55:
`giver not in matched and receiver not in matched.values()`.
The Python dict `matched` (insertion ordered) is modelled as the association
list of its items in insertion order. -/
def commitCond (matched : List (Nat × Nat)) (giver receiver : Nat) : Bool :=
  matched.all (fun p => p.1 != giver) && matched.all (fun p => p.2 != receiver)

/-- Lines 55-56: `matched[giver] = receiver` when the commitment test passes,
appended at the end (Python dicts preserve insertion order). -/
def greedyInsert (matched : List (Nat × Nat)) (giver receiver : Nat) : List (Nat × Nat) :=
  if commitCond matched giver receiver then matched ++ [(giver, receiver)] else matched

/-- The greedy loop of lines 54-58: scan the shuffled pairs in order, commit
a pair iff `commitCond` holds, and break as soon as
`len(matched) == len(participants)`. -/
def greedyScan (n : Nat) : List (Nat × Nat) → List (Nat × Nat) → List (Nat × Nat)
  | [], matched => matched
  | (giver, receiver) :: rest, matched =>
    let matched' := greedyInsert matched giver receiver
    if matched'.length = n then matched' else greedyScan n rest matched'

/-- The same loop without the early `break` of lines 57-58: used to show the
early stop does not change the result. -/
def greedyScanAll : List (Nat × Nat) → List (Nat × Nat) → List (Nat × Nat)
  | [], matched => matched
  | (giver, receiver) :: rest, matched =>
    greedyScanAll rest (greedyInsert matched giver receiver)

/-- `secret_santa_draw` (lines 41-64), with the shuffled candidate list passed
in (the shuffle outcome): run the greedy loop; if the assignment is not
complete raise (model: return `.error` with the message of line 61), else
return the list of participant row pairs `(iloc[giver], iloc[receiver])`. -/
def secret_santa_draw (participants : List Participant)
    (shuffled : List (Nat × Nat)) : Except String (List (Participant × Participant)) :=
  let matched := greedyScan participants.length shuffled []
  if matched.length ≠ participants.length then
    .error "Impossible de générer un tirage Secret Santa valide avec les contraintes actuelles."
  else
    .ok (matched.map fun p => (participants.getD p.1 default, participants.getD p.2 default))

/-- `load_participants` (lines 9-21), default-fill branch: reading the
spreadsheet is external, but when the `Catégorie` column is absent the loader
creates it filled with `None` (lines 18-19), so every loaded participant gets
the single unset marker `none`. A raw spreadsheet row is (NOM, Prénom, Email). -/
def load_participants_fill (rows : List (String × String × String)) : List Participant :=
  rows.map fun r => { nom := r.1, prenom := r.2.1, categorie := none, email := r.2.2 }

/-- Modelled from the spec: the shuffle source. `random.shuffle` is the Python
standard library (external to the repository); §9 of the spec abstracts it as
an injectable random-number generator. `shuffleWith rand` repeatedly extracts
the element the generator points at, an equivalent unbiased shuffle. -/
def shuffleWith {α : Type} [DecidableEq α] (rand : Nat → Nat) : Nat → List α → List α
  | _, [] => []
  | step, x :: xs =>
    have hj : rand step % (x :: xs).length < (x :: xs).length :=
      Nat.mod_lt _ (by simp)
    (x :: xs).get ⟨rand step % (x :: xs).length, hj⟩ ::
      shuffleWith rand (step + 1)
        ((x :: xs).erase ((x :: xs).get ⟨rand step % (x :: xs).length, hj⟩))
  termination_by _ l => l.length
  decreasing_by
    rw [List.length_erase_of_mem (List.get_mem _ _ _)]
    simp

/-- The draw as actually invoked (line 51): shuffle the candidate pairs with
the injected random source, then draw. -/
def secret_santa_draw_rand (rand : Nat → Nat) (participants : List Participant) :
    Except String (List (Participant × Participant)) :=
  secret_santa_draw participants (shuffleWith rand 0 (filter_valid_pairs participants))

/-! ### Basic characterizations -/

/-- The commitment test, as a proposition. -/
lemma commitCond_iff {matched : List (Nat × Nat)} {g r : Nat} :
    commitCond matched g r = true ↔
      (∀ p ∈ matched, p.1 ≠ g) ∧ (∀ p ∈ matched, p.2 ≠ r) := by
  simp [commitCond, List.all_eq_true]

/-- Membership in the candidate list: exactly the in-range index pairs whose
rows differ in identity and in category. -/
lemma mem_filter_valid_pairs {ps : List Participant} {i j : Nat} :
    (i, j) ∈ filter_valid_pairs ps ↔
      i < ps.length ∧ j < ps.length ∧
      validPair (ps.getD i default) (ps.getD j default) := by
  simp only [filter_valid_pairs, List.mem_flatMap, List.mem_filterMap, List.mem_range]
  constructor
  · rintro ⟨a, ha, b, hb, hab⟩
    split at hab
    · rename_i hcond
      obtain ⟨rfl, rfl⟩ : a = i ∧ b = j := by
        constructor <;> injection hab with h <;> simp_all
      exact ⟨ha, hb, hcond⟩
    · exact absurd hab (by simp)
  · rintro ⟨hi, hj, hcond⟩
    exact ⟨i, hi, j, hj, by rw [if_pos hcond]⟩

/-- Each inner `filterMap` output carries its giver index in the first slot. -/
lemma inner_fst_eq {ps : List Participant} {i : Nat} {p : Nat × Nat}
    (h : p ∈ (List.range ps.length).filterMap fun j =>
      if validPair (ps.getD i default) (ps.getD j default)
      then some (i, j) else none) : p.1 = i := by
  obtain ⟨b, _, hb⟩ := List.mem_filterMap.1 h
  split at hb
  · cases hb; rfl
  · exact absurd hb (by simp)

/-- The candidate list never repeats a pair. -/
lemma filter_valid_pairs_nodup (ps : List Participant) :
    (filter_valid_pairs ps).Nodup := by
  rw [filter_valid_pairs, List.nodup_flatMap]
  refine ⟨fun i _ => ?_, ?_⟩
  · refine List.Nodup.filterMap ?_ (List.nodup_range _)
    intro a a' b hb hb'
    split at hb
    · split at hb'
      · cases hb; cases hb'; rfl
      · exact absurd hb' (by simp)
    · exact absurd hb (by simp)
  · refine (List.nodup_range _).imp ?_
    intro i i' hne
    intro p hp hp'
    exact hne ((inner_fst_eq hp).symm.trans (inner_fst_eq hp'))

/-! ### Greedy scan: structural lemmas -/

lemma mem_greedyInsert {acc : List (Nat × Nat)} {g r : Nat} {p : Nat × Nat}
    (h : p ∈ greedyInsert acc g r) : p ∈ acc ∨ p = (g, r) := by
  unfold greedyInsert at h
  split at h
  · rcases List.mem_append.1 h with h | h
    · exact Or.inl h
    · exact Or.inr (by simpa using h)
  · exact Or.inl h

lemma greedyInsert_mem_of_mem {acc : List (Nat × Nat)} {g r : Nat} {p : Nat × Nat}
    (h : p ∈ acc) : p ∈ greedyInsert acc g r := by
  unfold greedyInsert
  split <;> simp [h]

lemma greedyInsert_length_le {acc : List (Nat × Nat)} {g r : Nat} :
    (greedyInsert acc g r).length ≤ acc.length + 1 := by
  unfold greedyInsert
  split <;> simp

lemma greedyInsert_le_length {acc : List (Nat × Nat)} {g r : Nat} :
    acc.length ≤ (greedyInsert acc g r).length := by
  unfold greedyInsert
  split <;> simp

/-- Everything in the scanned assignment comes from the initial assignment or
from the scanned pair list. -/
lemma greedyScan_mem {n : Nat} {l : List (Nat × Nat)} :
    ∀ {acc : List (Nat × Nat)} {p : Nat × Nat},
      p ∈ greedyScan n l acc → p ∈ acc ∨ p ∈ l := by
  induction l with
  | nil => intro acc p h; exact Or.inl h
  | cons x rest ih =>
    intro acc p h
    obtain ⟨g, r⟩ := x
    simp only [greedyScan] at h
    split at h
    · rcases mem_greedyInsert h with h | h
      · exact Or.inl h
      · exact Or.inr (by simp [h])
    · rcases ih h with h | h
      · rcases mem_greedyInsert h with h | h
        · exact Or.inl h
        · exact Or.inr (by simp [h])
      · exact Or.inr (List.mem_cons_of_mem _ h)

lemma greedyScanAll_mem {l : List (Nat × Nat)} :
    ∀ {acc : List (Nat × Nat)} {p : Nat × Nat},
      p ∈ greedyScanAll l acc → p ∈ acc ∨ p ∈ l := by
  induction l with
  | nil => intro acc p h; exact Or.inl h
  | cons x rest ih =>
    intro acc p h
    obtain ⟨g, r⟩ := x
    simp only [greedyScanAll] at h
    rcases ih h with h | h
    · rcases mem_greedyInsert h with h | h
      · exact Or.inl h
      · exact Or.inr (by simp [h])
    · exact Or.inr (List.mem_cons_of_mem _ h)

lemma greedyScanAll_mem_of_mem_acc {l : List (Nat × Nat)} :
    ∀ {acc : List (Nat × Nat)} {p : Nat × Nat},
      p ∈ acc → p ∈ greedyScanAll l acc := by
  induction l with
  | nil => intro acc p h; exact h
  | cons x rest ih =>
    intro acc p h
    obtain ⟨g, r⟩ := x
    exact ih (greedyInsert_mem_of_mem h)

/-! ### Greedy scan: injectivity invariants -/

lemma greedyInsert_fst_nodup {acc : List (Nat × Nat)} {g r : Nat}
    (h : (acc.map Prod.fst).Nodup) : ((greedyInsert acc g r).map Prod.fst).Nodup := by
  unfold greedyInsert
  split
  · rename_i hc
    have hg : ∀ p ∈ acc, p.1 ≠ g := (commitCond_iff.1 hc).1
    simp only [List.map_append, List.map_cons, List.map_nil]
    rw [List.nodup_append]
    refine ⟨h, List.nodup_singleton _, ?_⟩
    intro a ha hb
    obtain ⟨p, hp, rfl⟩ := List.mem_map.1 ha
    simp only [List.mem_singleton] at hb
    exact hg p hp hb
  · exact h

lemma greedyInsert_snd_nodup {acc : List (Nat × Nat)} {g r : Nat}
    (h : (acc.map Prod.snd).Nodup) : ((greedyInsert acc g r).map Prod.snd).Nodup := by
  unfold greedyInsert
  split
  · rename_i hc
    have hr : ∀ p ∈ acc, p.2 ≠ r := (commitCond_iff.1 hc).2
    simp only [List.map_append, List.map_cons, List.map_nil]
    rw [List.nodup_append]
    refine ⟨h, List.nodup_singleton _, ?_⟩
    intro a ha hb
    obtain ⟨p, hp, rfl⟩ := List.mem_map.1 ha
    simp only [List.mem_singleton] at hb
    exact hr p hp hb
  · exact h

/-- The greedy scan keeps the giver side duplicate-free. -/
lemma greedyScan_fst_nodup {n : Nat} {l : List (Nat × Nat)} :
    ∀ {acc : List (Nat × Nat)}, (acc.map Prod.fst).Nodup →
      ((greedyScan n l acc).map Prod.fst).Nodup := by
  induction l with
  | nil => intro acc h; exact h
  | cons x rest ih =>
    intro acc h
    obtain ⟨g, r⟩ := x
    simp only [greedyScan]
    split
    · exact greedyInsert_fst_nodup h
    · exact ih (greedyInsert_fst_nodup h)

/-- The greedy scan keeps the receiver side duplicate-free. -/
lemma greedyScan_snd_nodup {n : Nat} {l : List (Nat × Nat)} :
    ∀ {acc : List (Nat × Nat)}, (acc.map Prod.snd).Nodup →
      ((greedyScan n l acc).map Prod.snd).Nodup := by
  induction l with
  | nil => intro acc h; exact h
  | cons x rest ih =>
    intro acc h
    obtain ⟨g, r⟩ := x
    simp only [greedyScan]
    split
    · exact greedyInsert_snd_nodup h
    · exact ih (greedyInsert_snd_nodup h)

/-! ### Pigeonhole facts for duplicate-free lists of indices -/

lemma toFinset_eq_range {l : List Nat} {n : Nat} (hnd : l.Nodup)
    (hlt : ∀ x ∈ l, x < n) (hlen : l.length = n) :
    l.toFinset = Finset.range n := by
  have hsub : l.toFinset ⊆ Finset.range n := by
    intro x hx
    exact Finset.mem_range.2 (hlt x (List.mem_toFinset.1 hx))
  refine Finset.eq_of_subset_of_card_le hsub ?_
  rw [List.card_toFinset, List.dedup_eq_self.2 hnd, hlen, Finset.card_range]

lemma mem_of_nodup_of_lt {l : List Nat} {n : Nat} (hnd : l.Nodup)
    (hlt : ∀ x ∈ l, x < n) (hlen : l.length = n) {k : Nat} (hk : k < n) : k ∈ l := by
  have := toFinset_eq_range hnd hlt hlen
  rw [← List.mem_toFinset, this]
  exact Finset.mem_range.2 hk

lemma perm_range_of_nodup {l : List Nat} {n : Nat} (hnd : l.Nodup)
    (hlt : ∀ x ∈ l, x < n) (hlen : l.length = n) : l.Perm (List.range n) := by
  refine List.perm_of_nodup_nodup_toFinset_eq hnd (List.nodup_range n) ?_
  rw [toFinset_eq_range hnd hlt hlen]
  ext x
  simp [List.mem_toFinset, List.mem_range, Finset.mem_range]

/-! ### Greedy scan: early stop is harmless, and the result is bounded -/

lemma greedyInsert_eq_of_fst_mem {acc : List (Nat × Nat)} {g r : Nat}
    (h : g ∈ acc.map Prod.fst) : greedyInsert acc g r = acc := by
  unfold greedyInsert
  rw [if_neg]
  intro hc
  obtain ⟨p, hp, hpg⟩ := List.mem_map.1 h
  exact (commitCond_iff.1 hc).1 p hp hpg

lemma greedyInsert_fst_subset {acc : List (Nat × Nat)} {g r k : Nat}
    (h : k ∈ (greedyInsert acc g r).map Prod.fst) :
    k ∈ acc.map Prod.fst ∨ k = g := by
  obtain ⟨p, hp, rfl⟩ := List.mem_map.1 h
  rcases mem_greedyInsert hp with hp | rfl
  · exact Or.inl (List.mem_map_of_mem _ hp)
  · exact Or.inr rfl

/-- A duplicate-free list of indices below `n` has at most `n` entries. -/
lemma length_le_of_nodup_lt {l : List Nat} {n : Nat} (hnd : l.Nodup)
    (hlt : ∀ x ∈ l, x < n) : l.length ≤ n := by
  have hsub : l.toFinset ⊆ Finset.range n := by
    intro x hx
    exact Finset.mem_range.2 (hlt x (List.mem_toFinset.1 hx))
  have := Finset.card_le_card hsub
  rwa [List.card_toFinset, List.dedup_eq_self.2 hnd, Finset.card_range] at this

/-- Once the assignment is full (n entries, distinct givers all below n),
the rest of the scan commits nothing: every giver index is already taken. -/
lemma greedyScanAll_of_full {n : Nat} {l : List (Nat × Nat)} :
    ∀ {acc : List (Nat × Nat)}, (∀ x ∈ l, x.1 < n) →
      (acc.map Prod.fst).Nodup → (∀ k ∈ acc.map Prod.fst, k < n) →
      acc.length = n → greedyScanAll l acc = acc := by
  induction l with
  | nil => intro acc _ _ _ _; rfl
  | cons x rest ih =>
    intro acc hl hnd hlt hlen
    obtain ⟨g, r⟩ := x
    have hg : g ∈ acc.map Prod.fst := by
      refine mem_of_nodup_of_lt hnd hlt ?_ (hl (g, r) (by simp))
      rw [List.length_map, hlen]
    simp only [greedyScanAll, greedyInsert_eq_of_fst_mem hg]
    exact ih (fun x hx => hl x (List.mem_cons_of_mem _ hx)) hnd hlt hlen

/-- Early stop is harmless: as long as every giver index in the scanned list
is a participant index and the accumulated givers are distinct participant
indices, the loop with the `break` computes the same assignment as the loop
without it. -/
lemma greedyScan_eq_greedyScanAll {n : Nat} {l : List (Nat × Nat)} :
    ∀ {acc : List (Nat × Nat)}, (∀ x ∈ l, x.1 < n) →
      (acc.map Prod.fst).Nodup → (∀ k ∈ acc.map Prod.fst, k < n) →
      acc.length ≤ n → greedyScan n l acc = greedyScanAll l acc := by
  induction l with
  | nil => intro acc _ _ _ _; rfl
  | cons x rest ih =>
    intro acc hl hnd hlt hlen
    obtain ⟨g, r⟩ := x
    have hg : g < n := hl (g, r) (by simp)
    have hrest : ∀ x ∈ rest, x.1 < n := fun x hx => hl x (List.mem_cons_of_mem _ hx)
    by_cases hfull : acc.length = n
    · have hmem : g ∈ acc.map Prod.fst := by
        refine mem_of_nodup_of_lt hnd hlt ?_ hg
        rw [List.length_map, hfull]
      simp only [greedyScan, greedyScanAll, greedyInsert_eq_of_fst_mem hmem, hfull,
        if_pos rfl]
      exact (greedyScanAll_of_full hrest hnd hlt hfull).symm
    · have hlt' : acc.length < n := Nat.lt_of_le_of_ne hlen hfull
      have hnd' : ((greedyInsert acc g r).map Prod.fst).Nodup :=
        greedyInsert_fst_nodup hnd
      have hltk' : ∀ k ∈ (greedyInsert acc g r).map Prod.fst, k < n := by
        intro k hk
        rcases greedyInsert_fst_subset hk with hk | rfl
        · exact hlt k hk
        · exact hg
      have hlen' : (greedyInsert acc g r).length ≤ n :=
        le_trans greedyInsert_length_le hlt'
      simp only [greedyScan, greedyScanAll]
      split
      · rename_i hbreak
        exact (greedyScanAll_of_full hrest hnd' hltk' hbreak).symm
      · exact ih hrest hnd' hltk' hlen'

lemma greedyScanAll_fst_nodup {l : List (Nat × Nat)} :
    ∀ {acc : List (Nat × Nat)}, (acc.map Prod.fst).Nodup →
      ((greedyScanAll l acc).map Prod.fst).Nodup := by
  induction l with
  | nil => intro acc h; exact h
  | cons x rest ih =>
    intro acc h
    obtain ⟨g, r⟩ := x
    exact ih (greedyInsert_fst_nodup h)

/-! ### Greedy scan: maximality and locality -/

lemma greedyScanAll_append {l₁ l₂ : List (Nat × Nat)} :
    ∀ {acc : List (Nat × Nat)},
      greedyScanAll (l₁ ++ l₂) acc = greedyScanAll l₂ (greedyScanAll l₁ acc) := by
  induction l₁ with
  | nil => intro acc; rfl
  | cons x rest ih =>
    intro acc
    obtain ⟨g, r⟩ := x
    simp only [List.cons_append, greedyScanAll]
    exact ih

/-- The assignment is a subsequence of the initial assignment followed by the
scanned pairs (commitments are appended in scan order). -/
lemma greedyScanAll_sublist {l : List (Nat × Nat)} :
    ∀ {acc : List (Nat × Nat)}, (greedyScanAll l acc).Sublist (acc ++ l) := by
  induction l with
  | nil => intro acc; simp [greedyScanAll]
  | cons x rest ih =>
    intro acc
    obtain ⟨g, r⟩ := x
    simp only [greedyScanAll]
    unfold greedyInsert
    split
    · refine List.Sublist.trans ih ?_
      rw [List.append_assoc]
      simp
    · refine List.Sublist.trans ih ?_
      exact List.Sublist.append_left (List.sublist_cons_self _ _) acc

/-- Maximality of the greedy result: every scanned pair is blocked at the
end — its giver already gives, or its receiver already receives. -/
lemma greedyScanAll_blocked {l : List (Nat × Nat)} :
    ∀ {acc : List (Nat × Nat)} {g r : Nat}, (g, r) ∈ l →
      g ∈ (greedyScanAll l acc).map Prod.fst ∨
      r ∈ (greedyScanAll l acc).map Prod.snd := by
  induction l with
  | nil => intro acc g r h; cases h
  | cons x rest ih =>
    intro acc g r h
    obtain ⟨g', r'⟩ := x
    rcases List.mem_cons.1 h with h | h
    · obtain ⟨rfl, rfl⟩ := Prod.mk.injEq .. ▸ h
      by_cases hc : commitCond acc g r = true
      · left
        have : (g, r) ∈ greedyInsert acc g r := by
          unfold greedyInsert
          rw [if_pos hc]
          simp
        exact List.mem_map_of_mem _ (greedyScanAll_mem_of_mem_acc this)
      · rw [commitCond_iff, not_and_or] at hc
        rcases hc with hc | hc
        · left
          push_neg at hc
          obtain ⟨p, hp, hpg⟩ := hc
          have : p ∈ greedyScanAll rest (greedyInsert acc g r) :=
            greedyScanAll_mem_of_mem_acc (greedyInsert_mem_of_mem hp)
          simp only [greedyScanAll]
          exact List.mem_map.2 ⟨p, this, hpg⟩
        · right
          push_neg at hc
          obtain ⟨p, hp, hpr⟩ := hc
          have : p ∈ greedyScanAll rest (greedyInsert acc g r) :=
            greedyScanAll_mem_of_mem_acc (greedyInsert_mem_of_mem hp)
          simp only [greedyScanAll]
          exact List.mem_map.2 ⟨p, this, hpr⟩
    · simp only [greedyScanAll]
      exact ih h

/-- Locality of commitment: in a duplicate-free scan list, a pair ends up in
the assignment iff the commitment test passes at the moment it is scanned. -/
lemma greedyScanAll_commit_iff {l₁ l₂ : List (Nat × Nat)} {g r : Nat}
    (hnd : (l₁ ++ (g, r) :: l₂).Nodup) :
    ((g, r) ∈ greedyScanAll (l₁ ++ (g, r) :: l₂) []) ↔
      commitCond (greedyScanAll l₁ []) g r = true := by
  rw [greedyScanAll_append]
  rw [List.nodup_append] at hnd
  obtain ⟨hnd₁, hnd₂, hdisj⟩ := hnd
  have hnotl₁ : (g, r) ∉ l₁ := fun h => hdisj h (by simp)
  have hnotl₂ : (g, r) ∉ l₂ := (List.nodup_cons.1 hnd₂).1
  constructor
  · intro hmem
    by_contra hc
    have hins : greedyInsert (greedyScanAll l₁ []) g r = greedyScanAll l₁ [] := by
      unfold greedyInsert
      rw [if_neg hc]
    simp only [greedyScanAll, hins] at hmem
    rcases greedyScanAll_mem hmem with h | h
    · rcases greedyScanAll_mem h with h | h
      · cases h
      · exact hnotl₁ h
    · exact hnotl₂ h
  · intro hc
    have : (g, r) ∈ greedyInsert (greedyScanAll l₁ []) g r := by
      unfold greedyInsert
      rw [if_pos hc]
      simp
    simp only [greedyScanAll]
    exact greedyScanAll_mem_of_mem_acc this

lemma greedyScanAll_snd_nodup {l : List (Nat × Nat)} :
    ∀ {acc : List (Nat × Nat)}, (acc.map Prod.snd).Nodup →
      ((greedyScanAll l acc).map Prod.snd).Nodup := by
  induction l with
  | nil => intro acc h; exact h
  | cons x rest ih =>
    intro acc h
    obtain ⟨g, r⟩ := x
    exact ih (greedyInsert_snd_nodup h)

/-- The modelled shuffle returns a permutation of its input. -/
lemma shuffleWith_perm {α : Type} [DecidableEq α] (rand : Nat → Nat) :
    ∀ (n step : Nat) (l : List α), l.length ≤ n →
      (shuffleWith rand step l).Perm l := by
  intro n
  induction n with
  | zero =>
    intro step l hl
    rw [List.eq_nil_of_length_eq_zero (Nat.le_zero.1 hl)]
    simp [shuffleWith]
  | succ n ih =>
    intro step l hl
    match l with
    | [] => simp [shuffleWith]
    | x :: xs =>
      have hj : rand step % (x :: xs).length < (x :: xs).length :=
        Nat.mod_lt _ (by simp)
      rw [shuffleWith]
      have hy : (x :: xs).get ⟨rand step % (x :: xs).length, hj⟩ ∈ x :: xs :=
        List.get_mem _ _ _
      have herase : ((x :: xs).erase ((x :: xs).get
          ⟨rand step % (x :: xs).length, hj⟩)).length ≤ n := by
        rw [List.length_erase_of_mem hy]
        simp only [List.length_cons] at hl ⊢
        omega
      exact ((ih _ _ herase).cons _).trans (List.perm_cons_erase hy).symm

/-! ### Concrete instances -/

/-- Two participants with distinct identities and the same category. -/
def pairPs : List Participant :=
  [⟨"Dupont", "Alice", some "A", "a@x"⟩, ⟨"Martin", "Bob", some "A", "b@x"⟩]

/-- Four participants with distinct identities, categories A, A, B, B. -/
def quadPs : List Participant :=
  [⟨"Dupont", "Alice", some "A", "a@x"⟩, ⟨"Martin", "Bob", some "A", "b@x"⟩,
   ⟨"Durand", "Carol", some "B", "c@x"⟩, ⟨"Petit", "Dave", some "B", "d@x"⟩]

/-- Four participants with distinct identities, categories A, A, B, C. -/
def brittlePs : List Participant :=
  [⟨"Dupont", "Alice", some "A", "a@x"⟩, ⟨"Martin", "Bob", some "A", "b@x"⟩,
   ⟨"Durand", "Carol", some "B", "c@x"⟩, ⟨"Petit", "Dave", some "C", "d@x"⟩]

/-- A shuffle outcome for `brittlePs` that traps the greedy scan: participants
2 and 3 exchange gifts first, leaving no receiver for givers 0 and 1. -/
def brittleOrder : List (Nat × Nat) :=
  [(2, 3), (3, 2), (0, 2), (0, 3), (1, 2), (1, 3), (2, 0), (2, 1), (3, 0), (3, 1)]

/-- The candidate pairs of `quadPs`, computed. -/
def quadCandidates : List (Nat × Nat) :=
  [(0, 2), (0, 3), (1, 2), (1, 3), (2, 0), (2, 1), (3, 0), (3, 1)]

lemma quadCandidates_eq : filter_valid_pairs quadPs = quadCandidates := by decide

set_option maxRecDepth 10000 in
/-- Exhaustive check over all sub-assignments of the A, A, B, B candidate
pairs: an injective partial assignment that blocks every candidate pair is
necessarily complete. This is the Hall-type fact that makes the greedy scan
infallible on `quadPs`. -/
lemma quad_blocked_complete : ∀ s ∈ quadCandidates.sublists,
    (∀ p ∈ quadCandidates, p.1 ∈ s.map Prod.fst ∨ p.2 ∈ s.map Prod.snd) →
    (s.map Prod.fst).Nodup → (s.map Prod.snd).Nodup → s.length = 4 := by
  decide

/-- Two uncategorized participants as produced by the loader's default fill. -/
def noCatPs : List Participant :=
  load_participants_fill [("Dupont", "Alice", "a@x"), ("Martin", "Bob", "b@x")]

/-! ### Claims -/

/-- C4: `filter_valid_pairs` returns exactly the ordered index pairs (i, j) —
with i and j ranging over all participants, including i = j — such that
participant i's identity (last name, first name) differs from participant j's
and their categories differ: every such pair is in the output and no other
pair is. -/
theorem filter_valid_pairs_exact (ps : List Participant) (i j : Nat) :
    (i, j) ∈ filter_valid_pairs ps ↔
      i < ps.length ∧ j < ps.length ∧
      ((ps.getD i default).nom, (ps.getD i default).prenom) ≠
        ((ps.getD j default).nom, (ps.getD j default).prenom) ∧
      (ps.getD i default).categorie ≠ (ps.getD j default).categorie := by
  rw [mem_filter_valid_pairs]
  simp only [validPair, ne_eq, Prod.mk.injEq, not_and_or]

/-- C8: two participants whose category is the unset marker produced by the
loader's default fill compare as equal in category, so `filter_valid_pairs`
never pairs them in either direction — and the default fill does give every
loaded participant that single unset marker. -/
theorem uncategorized_never_paired (ps : List Participant) (i j : Nat)
    (hci : (ps.getD i default).categorie = none)
    (hcj : (ps.getD j default).categorie = none) :
    (i, j) ∉ filter_valid_pairs ps ∧ (j, i) ∉ filter_valid_pairs ps ∧
    ∀ (rows : List (String × String × String)),
      ∀ q ∈ load_participants_fill rows, q.categorie = none := by
  refine ⟨?_, ?_, ?_⟩
  · intro h
    exact (mem_filter_valid_pairs.1 h).2.2.2 (hci.trans hcj.symm)
  · intro h
    exact (mem_filter_valid_pairs.1 h).2.2.2 (hcj.trans hci.symm)
  · intro rows q hq
    simp only [load_participants_fill, List.mem_map] at hq
    obtain ⟨r, _, rfl⟩ := hq
    rfl

/-- Witness for C8 on the two uncategorized loaded participants. -/
theorem uncategorized_never_paired_witness :
    (0, 1) ∉ filter_valid_pairs noCatPs ∧ (1, 0) ∉ filter_valid_pairs noCatPs ∧
    ∀ (rows : List (String × String × String)),
      ∀ q ∈ load_participants_fill rows, q.categorie = none :=
  uncategorized_never_paired noCatPs 0 1 rfl rfl

/-- C9: with the random source fixed, the draw is deterministic — repeated
calls on identical input give identical results (in the model the draw is a
pure function of the participant list and the random source, so the input is
not mutated) — and the injected shuffle feeds the greedy scan a permutation
of the candidate pairs. -/
theorem draw_rand_deterministic (rand : Nat → Nat) (ps : List Participant) :
    secret_santa_draw_rand rand ps = secret_santa_draw_rand rand ps ∧
    (shuffleWith rand 0 (filter_valid_pairs ps)).Perm (filter_valid_pairs ps) :=
  ⟨rfl, shuffleWith_perm rand _ 0 _ le_rfl⟩

/-- C10: on the empty participant list the draw succeeds for every shuffle
outcome and returns the empty assignment: the completeness check `len(matched)
== len(participants)` is satisfied vacuously by 0 = 0, so no error is raised
and the spec's N ≥ 2 note is not enforced here. -/
theorem draw_empty_ok (shuffled : List (Nat × Nat))
    (hperm : shuffled.Perm (filter_valid_pairs [])) :
    secret_santa_draw [] shuffled = .ok [] := by
  have hnil : shuffled = [] := by
    have : filter_valid_pairs [] = [] := rfl
    exact (this ▸ hperm).eq_nil
  subst hnil
  rfl

/-- Witness for C10 at the empty shuffle. -/
theorem draw_empty_ok_witness : secret_santa_draw [] [] = .ok [] :=
  draw_empty_ok [] (List.Perm.refl _)

/-- C1: every (giver, receiver) pair of a successfully returned assignment
satisfies both exclusion rules — the giver's identity (last name, first name)
differs from the receiver's, and the giver's category differs from the
receiver's — so in particular no participant is ever assigned to
themselves. -/
theorem draw_pairs_valid (ps : List Participant) (shuffled : List (Nat × Nat))
    (hperm : shuffled.Perm (filter_valid_pairs ps))
    (res : List (Participant × Participant))
    (hok : secret_santa_draw ps shuffled = .ok res) :
    ∀ giver receiver, (giver, receiver) ∈ res →
      (giver.nom, giver.prenom) ≠ (receiver.nom, receiver.prenom) ∧
      giver.categorie ≠ receiver.categorie ∧ giver ≠ receiver := by
  intro giver receiver hmem
  simp only [secret_santa_draw] at hok
  split at hok
  · exact absurd hok (by simp)
  · injection hok with hok
    subst hok
    obtain ⟨p, hp, hpe⟩ := List.mem_map.1 hmem
    obtain ⟨i, j⟩ := p
    injection hpe with h1 h2
    subst h1
    subst h2
    have hfvp : (i, j) ∈ filter_valid_pairs ps := by
      rcases greedyScan_mem hp with h | h
      · cases h
      · exact hperm.subset h
    obtain ⟨hi, hj, hv⟩ := mem_filter_valid_pairs.1 hfvp
    unfold validPair at hv
    refine ⟨?_, hv.2, ?_⟩
    · intro h
      injection h with ha hb
      rcases hv.1 with h' | h'
      · exact h' ha
      · exact h' hb
    · intro h
      exact hv.2 (congrArg Participant.categorie h)

/-- The greedy scan on `quadPs`, with the unshuffled candidate order,
commits 0→2, 1→3, 2→0, 3→1. -/
def quadDrawResult : List (Participant × Participant) :=
  [(quadPs.getD 0 default, quadPs.getD 2 default),
   (quadPs.getD 1 default, quadPs.getD 3 default),
   (quadPs.getD 2 default, quadPs.getD 0 default),
   (quadPs.getD 3 default, quadPs.getD 1 default)]

lemma quad_draw_ok :
    secret_santa_draw quadPs (filter_valid_pairs quadPs) = .ok quadDrawResult := by
  have h : greedyScan quadPs.length (filter_valid_pairs quadPs) [] =
      [(0, 2), (1, 3), (2, 0), (3, 1)] := by decide
  simp only [secret_santa_draw, h]
  rfl

/-- Witness for C1 on a concrete successful draw, at its first pair. -/
theorem draw_pairs_valid_witness :
    ((quadPs.getD 0 default).nom, (quadPs.getD 0 default).prenom) ≠
      ((quadPs.getD 2 default).nom, (quadPs.getD 2 default).prenom) ∧
    (quadPs.getD 0 default).categorie ≠ (quadPs.getD 2 default).categorie ∧
    quadPs.getD 0 default ≠ quadPs.getD 2 default :=
  draw_pairs_valid quadPs (filter_valid_pairs quadPs) (List.Perm.refl _)
    quadDrawResult quad_draw_ok (quadPs.getD 0 default) (quadPs.getD 2 default)
    (by decide)

/-- C2: on success the assignment is a bijection over the full participant
set — the giver indices are a permutation of 0..N-1 and so are the receiver
indices — and throughout the greedy scan (after any number k of scanned
pairs) the accumulated mapping has pairwise-distinct givers,
pairwise-distinct receivers, and only participant indices on both sides. -/
theorem draw_bijection (ps : List Participant) (shuffled : List (Nat × Nat))
    (hperm : shuffled.Perm (filter_valid_pairs ps))
    (res : List (Participant × Participant))
    (hok : secret_santa_draw ps shuffled = .ok res) :
    ((greedyScan ps.length shuffled []).map Prod.fst).Perm
        (List.range ps.length) ∧
    ((greedyScan ps.length shuffled []).map Prod.snd).Perm
        (List.range ps.length) ∧
    ∀ k : Nat,
      ((greedyScan ps.length (shuffled.take k) []).map Prod.fst).Nodup ∧
      ((greedyScan ps.length (shuffled.take k) []).map Prod.snd).Nodup ∧
      ∀ p ∈ greedyScan ps.length (shuffled.take k) [],
        p.1 < ps.length ∧ p.2 < ps.length := by
  have hbound : ∀ p ∈ shuffled, p.1 < ps.length ∧ p.2 < ps.length := by
    intro p hp
    obtain ⟨i, j⟩ := p
    obtain ⟨hi, hj, _⟩ := mem_filter_valid_pairs.1 (hperm.subset hp)
    exact ⟨hi, hj⟩
  have hlen : (greedyScan ps.length shuffled []).length = ps.length := by
    by_contra hne
    simp only [secret_santa_draw] at hok
    rw [if_pos hne] at hok
    exact absurd hok (by simp)
  have hscanbound : ∀ p ∈ greedyScan ps.length shuffled [],
      p.1 < ps.length ∧ p.2 < ps.length := by
    intro p hp
    rcases greedyScan_mem hp with h | h
    · cases h
    · exact hbound p h
  refine ⟨?_, ?_, ?_⟩
  · refine perm_range_of_nodup (greedyScan_fst_nodup (by simp)) ?_ ?_
    · intro x hx
      obtain ⟨p, hp, rfl⟩ := List.mem_map.1 hx
      exact (hscanbound p hp).1
    · rw [List.length_map, hlen]
  · refine perm_range_of_nodup (greedyScan_snd_nodup (by simp)) ?_ ?_
    · intro x hx
      obtain ⟨p, hp, rfl⟩ := List.mem_map.1 hx
      exact (hscanbound p hp).2
    · rw [List.length_map, hlen]
  · intro k
    refine ⟨greedyScan_fst_nodup (by simp), greedyScan_snd_nodup (by simp), ?_⟩
    intro p hp
    rcases greedyScan_mem hp with h | h
    · cases h
    · exact hbound p (List.Sublist.mem h (List.take_sublist _ _))

/-- Witness for C2 on a concrete successful draw. -/
theorem draw_bijection_witness :
    ((greedyScan quadPs.length (filter_valid_pairs quadPs) []).map Prod.fst).Perm
        (List.range quadPs.length) ∧
    ((greedyScan quadPs.length (filter_valid_pairs quadPs) []).map Prod.snd).Perm
        (List.range quadPs.length) ∧
    ∀ k : Nat,
      ((greedyScan quadPs.length ((filter_valid_pairs quadPs).take k) []).map
          Prod.fst).Nodup ∧
      ((greedyScan quadPs.length ((filter_valid_pairs quadPs).take k) []).map
          Prod.snd).Nodup ∧
      ∀ p ∈ greedyScan quadPs.length ((filter_valid_pairs quadPs).take k) [],
        p.1 < quadPs.length ∧ p.2 < quadPs.length :=
  draw_bijection quadPs (filter_valid_pairs quadPs) (List.Perm.refl _)
    quadDrawResult quad_draw_ok

/-- C3: the draw raises the infeasible-draw error iff the greedy assignment
over the whole candidate scan ends with fewer than N entries; on error no
assignment is returned (the result is the `.error`, never an `.ok`), and on
success no error is raised. -/
theorem draw_error_iff (ps : List Participant) (shuffled : List (Nat × Nat))
    (hperm : shuffled.Perm (filter_valid_pairs ps)) :
    ((∃ msg, secret_santa_draw ps shuffled = .error msg) ↔
      (greedyScanAll shuffled []).length < ps.length) ∧
    (∀ res, secret_santa_draw ps shuffled = .ok res →
      ¬∃ msg, secret_santa_draw ps shuffled = .error msg) := by
  have hfst : ∀ x ∈ shuffled, x.1 < ps.length := by
    intro x hx
    obtain ⟨i, j⟩ := x
    exact (mem_filter_valid_pairs.1 (hperm.subset hx)).1
  have heq : greedyScan ps.length shuffled [] = greedyScanAll shuffled [] :=
    greedyScan_eq_greedyScanAll hfst (by simp) (by simp) (by simp)
  have hndf : ((greedyScanAll shuffled []).map Prod.fst).Nodup :=
    greedyScanAll_fst_nodup (by simp)
  have hle : (greedyScanAll shuffled []).length ≤ ps.length := by
    rw [← List.length_map (greedyScanAll shuffled []) Prod.fst]
    refine length_le_of_nodup_lt hndf ?_
    intro x hx
    obtain ⟨p, hp, rfl⟩ := List.mem_map.1 hx
    rcases greedyScanAll_mem hp with h | h
    · cases h
    · exact hfst p h
  constructor
  · constructor
    · rintro ⟨msg, hmsg⟩
      simp only [secret_santa_draw] at hmsg
      by_cases hne : (greedyScan ps.length shuffled []).length = ps.length
      · rw [if_neg (not_not_intro hne)] at hmsg
        exact absurd hmsg (by simp)
      · rw [heq] at hne
        exact lt_of_le_of_ne hle hne
    · intro hlt
      have hne : (greedyScan ps.length shuffled []).length ≠ ps.length := by
        rw [heq]
        exact Nat.ne_of_lt hlt
      exact ⟨_, by simp only [secret_santa_draw]; rw [if_pos hne]⟩
  · rintro res hres ⟨msg, hmsg⟩
    rw [hres] at hmsg
    exact absurd hmsg (by simp)

/-- Witness for C3 on the infeasible two-participant input. -/
theorem draw_error_iff_witness :
    ((∃ msg, secret_santa_draw pairPs (filter_valid_pairs pairPs) = .error msg) ↔
      (greedyScanAll (filter_valid_pairs pairPs) []).length < pairPs.length) ∧
    (∀ res, secret_santa_draw pairPs (filter_valid_pairs pairPs) = .ok res →
      ¬∃ msg, secret_santa_draw pairPs (filter_valid_pairs pairPs) = .error msg) :=
  draw_error_iff pairPs (filter_valid_pairs pairPs) (List.Perm.refl _)

/-- C5: during the greedy scan a pair (g, r) ends up in the assignment iff,
at the moment it is scanned (after the scan of the pairs before it), its
giver has no assignment yet and its receiver is not already used — first fit,
no backtracking — and the early stop at size N does not change the result
relative to scanning the whole list. -/
theorem greedy_commit_first_fit (ps : List Participant)
    (shuffled l₁ l₂ : List (Nat × Nat)) (g r : Nat)
    (hperm : shuffled.Perm (filter_valid_pairs ps))
    (hsplit : shuffled = l₁ ++ (g, r) :: l₂) :
    greedyScan ps.length shuffled [] = greedyScanAll shuffled [] ∧
    ((g, r) ∈ greedyScan ps.length shuffled [] ↔
      (∀ p ∈ greedyScanAll l₁ [], p.1 ≠ g) ∧
      (∀ p ∈ greedyScanAll l₁ [], p.2 ≠ r)) := by
  have hfst : ∀ x ∈ shuffled, x.1 < ps.length := by
    intro x hx
    obtain ⟨i, j⟩ := x
    exact (mem_filter_valid_pairs.1 (hperm.subset hx)).1
  have heq : greedyScan ps.length shuffled [] = greedyScanAll shuffled [] :=
    greedyScan_eq_greedyScanAll hfst (by simp) (by simp) (by simp)
  have hnd : shuffled.Nodup := hperm.nodup_iff.2 (filter_valid_pairs_nodup ps)
  refine ⟨heq, ?_⟩
  rw [heq, hsplit]
  rw [hsplit] at hnd
  rw [greedyScanAll_commit_iff hnd]
  exact commitCond_iff

/-- Witness for C5 at the first scanned pair of the unshuffled `quadPs`
candidate list. -/
theorem greedy_commit_first_fit_witness :
    greedyScan quadPs.length (filter_valid_pairs quadPs) [] =
      greedyScanAll (filter_valid_pairs quadPs) [] ∧
    ((0, 2) ∈ greedyScan quadPs.length (filter_valid_pairs quadPs) [] ↔
      (∀ p ∈ greedyScanAll ([] : List (Nat × Nat)) [], p.1 ≠ 0) ∧
      (∀ p ∈ greedyScanAll ([] : List (Nat × Nat)) [], p.2 ≠ 2)) :=
  greedy_commit_first_fit quadPs (filter_valid_pairs quadPs) []
    [(0, 3), (1, 2), (1, 3), (2, 0), (2, 1), (3, 0), (3, 1)] 0 2
    (List.Perm.refl _) (by decide)

/-- C6: there is a participant list admitting a valid complete matching
(a bijection whose every pair is a candidate pair) together with a shuffle
order of the candidate pairs for which the draw nevertheless fails with the
infeasible-draw error: the greedy first-fit scan is not a complete bipartite
matching algorithm. -/
theorem greedy_spurious_failure :
    ∃ (ps : List Participant) (shuffled matching : List (Nat × Nat)),
      shuffled.Perm (filter_valid_pairs ps) ∧
      (matching.map Prod.fst).Perm (List.range ps.length) ∧
      (matching.map Prod.snd).Perm (List.range ps.length) ∧
      (∀ p ∈ matching, p ∈ filter_valid_pairs ps) ∧
      ∃ msg, secret_santa_draw ps shuffled = .error msg := by
  refine ⟨brittlePs, brittleOrder, [(0, 2), (1, 3), (2, 0), (3, 1)],
    ?_, ?_, ?_, ?_, ?_⟩
  · decide
  · decide
  · decide
  · decide
  · refine ⟨"Impossible de générer un tirage Secret Santa valide avec les contraintes actuelles.", ?_⟩
    have h : greedyScan brittlePs.length brittleOrder [] = [(2, 3), (3, 2)] := by
      decide
    simp only [secret_santa_draw, h]
    rfl

/-- C7: on exactly two participants with distinct identities and the same
category the draw fails with the infeasible-draw error for every shuffle
outcome; on four participants with distinct identities in categories
A, A, B, B the draw succeeds for every shuffle outcome. -/
theorem feasibility_dependent (s2 s4 : List (Nat × Nat))
    (h2 : s2.Perm (filter_valid_pairs pairPs))
    (h4 : s4.Perm (filter_valid_pairs quadPs)) :
    (∃ msg, secret_santa_draw pairPs s2 = .error msg) ∧
    ∃ res, secret_santa_draw quadPs s4 = .ok res := by
  constructor
  · have hnil : s2 = [] := by
      have he : filter_valid_pairs pairPs = [] := by decide
      exact (he ▸ h2).eq_nil
    subst hnil
    exact ⟨_, rfl⟩
  · have hfvp : filter_valid_pairs quadPs = quadCandidates := quadCandidates_eq
    have hfst : ∀ x ∈ s4, x.1 < quadPs.length := by
      intro x hx
      obtain ⟨i, j⟩ := x
      exact (mem_filter_valid_pairs.1 (h4.subset hx)).1
    have heq : greedyScan quadPs.length s4 [] = greedyScanAll s4 [] :=
      greedyScan_eq_greedyScanAll hfst (by simp) (by simp) (by simp)
    have hnds : s4.Nodup := h4.nodup_iff.2 (filter_valid_pairs_nodup _)
    have hsubl : (greedyScanAll s4 []).Sublist s4 := by
      have h : (greedyScanAll s4 []).Sublist ([] ++ s4) := greedyScanAll_sublist
      simpa using h
    have hndM : (greedyScanAll s4 []).Nodup := hsubl.nodup hnds
    have hMsub : ∀ p ∈ greedyScanAll s4 [], p ∈ quadCandidates := by
      intro p hp
      rcases greedyScanAll_mem hp with h | h
      · cases h
      · exact hfvp ▸ h4.subset h
    obtain ⟨s, hsM, hssub⟩ := List.Nodup.subperm hndM hMsub
    have hs_mem : s ∈ quadCandidates.sublists := List.mem_sublists.2 hssub
    have hblocked : ∀ p ∈ quadCandidates,
        p.1 ∈ s.map Prod.fst ∨ p.2 ∈ s.map Prod.snd := by
      intro p hp
      obtain ⟨g, r⟩ := p
      have hp4 : (g, r) ∈ s4 := h4.symm.subset (hfvp ▸ hp)
      rcases @greedyScanAll_blocked s4 [] g r hp4 with h | h
      · exact Or.inl (((hsM.map Prod.fst).mem_iff).2 h)
      · exact Or.inr (((hsM.map Prod.snd).mem_iff).2 h)
    have hnf : (s.map Prod.fst).Nodup :=
      ((hsM.map Prod.fst).nodup_iff).2 (greedyScanAll_fst_nodup (by simp))
    have hns : (s.map Prod.snd).Nodup :=
      ((hsM.map Prod.snd).nodup_iff).2 (greedyScanAll_snd_nodup (by simp))
    have hslen : s.length = 4 := quad_blocked_complete s hs_mem hblocked hnf hns
    have hMlen : (greedyScanAll s4 []).length = 4 := by
      rw [← hsM.length_eq]
      exact hslen
    have hne : ¬(greedyScan quadPs.length s4 []).length ≠ quadPs.length := by
      rw [heq, hMlen]
      decide
    exact ⟨_, by simp only [secret_santa_draw]; rw [if_neg hne]⟩

/-- Witness for C7 at the unshuffled candidate orders. -/
theorem feasibility_dependent_witness :
    (∃ msg, secret_santa_draw pairPs (filter_valid_pairs pairPs) = .error msg) ∧
    ∃ res, secret_santa_draw quadPs (filter_valid_pairs quadPs) = .ok res :=
  feasibility_dependent (filter_valid_pairs pairPs) (filter_valid_pairs quadPs)
    (List.Perm.refl _) (List.Perm.refl _)
